import Mathlib

/-!
# Bresenham and Xiaolin Wu line rasterisers

A shallow embedding of `bresenhamLine` and `bresenhamWithXiaolin` from
`main.cpp`, together with the properties stated about them.

The source is read in two ways.

* Ideal arithmetic (namespace `Raster`), for the statements made over unbounded
  integers and in exact arithmetic.  C++ `int` is an unbounded `Int`; a C++ `float`
  is `some q` for a rational `q`, or `none` for a non-finite value (the result of
  dividing by zero, and whatever is computed from it).
* Machine arithmetic (namespace `Raster.Machine`), for the statements about the code
  as compiled.  C++ `int` is a 32-bit two's complement integer and C++ `float` is IEEE
  754 binary32, every operation rounded to nearest, ties to even.

In both, `while (true)` takes a fuel argument.  In ideal arithmetic
`for (int x = x0; x <= x1; ++x)` runs its body once for each of the `x1 - x0 + 1`
values of `x` (no iteration when `x0 > x1`); in machine arithmetic the counter wraps,
so the loop takes fuel as well.
-/

namespace Raster

/-! ## Exact-arithmetic floats -/

/-- Value of a C++ `float` in exact arithmetic; `none` is a non-finite value. -/
abbrev XFloat := Option ℚ

/-- Conversion `int -> float` in exact arithmetic (no rounding). -/
def XFloat.ofInt (i : Int) : XFloat := some (i : ℚ)

/-- Float addition in exact arithmetic. -/
def XFloat.add : XFloat → XFloat → XFloat
  | some p, some q => some (p + q)
  | _, _ => none

/-- Float subtraction in exact arithmetic. -/
def XFloat.sub : XFloat → XFloat → XFloat
  | some p, some q => some (p - q)
  | _, _ => none

/-- Float multiplication in exact arithmetic. -/
def XFloat.mul : XFloat → XFloat → XFloat
  | some p, some q => some (p * q)
  | _, _ => none

/-- Float division in exact arithmetic; a zero divisor gives a non-finite value. -/
def XFloat.div : XFloat → XFloat → XFloat
  | some p, some q => if q = 0 then none else some (p / q)
  | _, _ => none

/-- The expression `2.0f * cell / extent - 1.0f` used by both rasterisers. -/
def ndc (cell extent : Int) : XFloat :=
  XFloat.sub (XFloat.div (XFloat.mul (some 2) (XFloat.ofInt cell)) (XFloat.ofInt extent)) (some 1)

/-! ## `bresenhamLine` -/

/-- The `while (true)` loop of `bresenhamLine` over unbounded integers.  `emit x0 y0 err`
is what the body appends to `vertices` at the top of an iteration. -/
def bresenhamLoop {α : Type} (emit : Int → Int → Int → List α)
    (x1 y1 dx sx dy sy : Int) : Nat → Int → Int → Int → List α → Option (List α)
  | 0, _, _, _, _ => none
  | fuel + 1, x0, y0, err, vertices =>
    let vertices := vertices ++ emit x0 y0 err
    if x0 = x1 ∧ y0 = y1 then some vertices
    else
      let e2 := 2 * err
      let err1 := if e2 ≥ dy then err + dy else err
      let x0 := if e2 ≥ dy then x0 + sx else x0
      let err2 := if e2 ≤ dx then err1 + dx else err1
      let y0 := if e2 ≤ dx then y0 + sy else y0
      bresenhamLoop emit x1 y1 dx sx dy sy fuel x0 y0 err2 vertices

/-- The set-up of `bresenhamLine` followed by its loop, for any emission. -/
def bresenhamRun {α : Type} (emit : Int → Int → Int → List α)
    (fuel : Nat) (x0 y0 x1 y1 : Int) : Option (List α) :=
  let dx := |x1 - x0|
  let sx : Int := if x0 < x1 then 1 else -1
  let dy := -|y1 - y0|
  let sy : Int := if y0 < y1 then 1 else -1
  let err := dx + dy
  bresenhamLoop emit x1 y1 dx sx dy sy fuel x0 y0 err []

/-- The function `bresenhamLine`: the flat list `ndcX, ndcY, ndcX, ndcY, ...`. -/
def bresenhamLine (fuel : Nat) (x0 y0 x1 y1 width height : Int) : Option (List XFloat) :=
  bresenhamRun (fun x y _ => [ndc x width, ndc y height]) fuel x0 y0 x1 y1

/-- The cells `(x0, y0)` that `bresenhamLine` normalises and pushes, in order. -/
def bresenhamCells (fuel : Nat) (x0 y0 x1 y1 : Int) : Option (List (Int × Int)) :=
  bresenhamRun (fun x y _ => [(x, y)]) fuel x0 y0 x1 y1

/-- The cells together with the value of `err` at the moment each is pushed. -/
def bresenhamTrace (fuel : Nat) (x0 y0 x1 y1 : Int) : Option (List (Int × Int × Int)) :=
  bresenhamRun (fun x y e => [(x, y, e)]) fuel x0 y0 x1 y1

/-! ## `bresenhamWithXiaolin` -/

/-- The `Vertex` structure. -/
structure Vertex where
  x : XFloat
  y : XFloat
  alpha : XFloat
  deriving DecidableEq

/-- A cell with its weight: what a `Vertex` holds before normalisation. -/
structure WCell where
  col : Int
  row : Int
  weight : XFloat
  deriving DecidableEq

/-- The `for` loop of `bresenhamWithXiaolin` over unbounded integers and in exact
arithmetic, run for the given number of values of `x`.  `emit col row weight` is what one `push_back` appends.
`int(floor(y))` of a non-finite `y` is undefined: the result is `none`. -/
def wuLoop {α : Type} (emit : Int → Int → XFloat → α) (steep : Bool) (gradient : XFloat) :
    Nat → Int → XFloat → List α → Option (List α)
  | 0, _, _, vertices => some vertices
  | n + 1, x, y, vertices =>
    match y with
    | none => none
    | some yv =>
      let y_int : Int := ⌊yv⌋
      let frac := XFloat.sub y (XFloat.ofInt y_int)
      let vertices := vertices ++
        [emit (if steep then y_int else x) (if steep then x else y_int)
          (XFloat.sub (some 1) frac)]
      let vertices := vertices ++
        [emit (if steep then y_int + 1 else x) (if steep then x else y_int + 1) frac]
      wuLoop emit steep gradient n (x + 1) (XFloat.add y gradient) vertices

/-- The values fixed by `bresenhamWithXiaolin` before its loop. -/
structure WuSetup where
  steep : Bool
  x0 : Int
  y0 : Int
  x1 : Int
  y1 : Int
  dx : XFloat
  dy : XFloat
  gradient : XFloat
  deriving DecidableEq

/-- Lines 49 to 63: steepness test, the two swaps, `dx`, `dy`, `gradient`. -/
def wuSetup (x0 y0 x1 y1 : Int) : WuSetup :=
  let steep : Bool := decide (|y1 - y0| > |x1 - x0|)
  let p0 : Int × Int := if steep then (y0, x0) else (x0, y0)
  let p1 : Int × Int := if steep then (y1, x1) else (x1, y1)
  let q0 : Int × Int := if p0.1 > p1.1 then p1 else p0
  let q1 : Int × Int := if p0.1 > p1.1 then p0 else p1
  let dx := XFloat.ofInt (q1.1 - q0.1)
  let dy := XFloat.ofInt (q1.2 - q0.2)
  { steep := steep, x0 := q0.1, y0 := q0.2, x1 := q1.1, y1 := q1.2,
    dx := dx, dy := dy, gradient := XFloat.div dy dx }

/-- The set-up of `bresenhamWithXiaolin` followed by its loop, for any emission. -/
def wuRun {α : Type} (emit : Int → Int → XFloat → α) (x0 y0 x1 y1 : Int) : Option (List α) :=
  let s := wuSetup x0 y0 x1 y1
  let y := XFloat.add (XFloat.ofInt s.y0) (some 0)
  wuLoop emit s.steep s.gradient (s.x1 - s.x0 + 1).toNat s.x0 y []

/-- The function `bresenhamWithXiaolin`. -/
def bresenhamWithXiaolin (x0 y0 x1 y1 width height : Int) : Option (List Vertex) :=
  wuRun (fun c r w => { x := ndc c width, y := ndc r height, alpha := w }) x0 y0 x1 y1

/-- The weighted cells that `bresenhamWithXiaolin` normalises and pushes, in order. -/
def wuCells (x0 y0 x1 y1 : Int) : Option (List WCell) :=
  wuRun (fun c r w => { col := c, row := r, weight := w }) x0 y0 x1 y1

/-! ## The same code in machine arithmetic

The definitions above read `int` as an unbounded integer and `float` in exact
arithmetic.  The definitions below read the same source lines with `int` as a 32-bit
two's complement integer (arithmetic wraps) and `float` as IEEE 754 binary32 with
round to nearest, ties to even: every conversion `int -> float` and every `+`, `-`,
`*`, `/` on floats is the exact result rounded.  A non-finite float is `none`; the
only divisors in the program are conversions of integers, so a division by an
infinity never arises.  Converting to `int` a float that is not finite or whose floor is
outside the 32-bit range is undefined behaviour. -/

namespace Machine

/-- Outcome of a call. -/
inductive Run (α : Type) where
  /-- The call returns this vector. -/
  | returned : List α → Run α
  /-- The call runs into undefined behaviour. -/
  | undefined : Run α
  /-- The fuel ran out before the loop was left. -/
  | unfinished : Run α
  deriving DecidableEq

/-- A 32-bit two's complement `int`: the value of the integer `i` after wrapping. -/
def wrap32 (i : Int) : Int := (i + 2147483648) % 4294967296 - 2147483648

/-- The integer nearest to `q`, a tie going to the even neighbour. -/
def roundHalfEven (q : ℚ) : Int :=
  if q - ⌊q⌋ < 1 / 2 then ⌊q⌋
  else if 1 / 2 < q - ⌊q⌋ then ⌊q⌋ + 1
  else if ⌊q⌋ % 2 = 0 then ⌊q⌋ else ⌊q⌋ + 1

/-- The spacing of binary32 numbers around `q`: `2 ^ (e - 23)` where `2 ^ e <= |q| <
2 ^ (e + 1)`, with `e` no smaller than -126 (the subnormal range). -/
def ulp32 (q : ℚ) : ℚ := (2 : ℚ) ^ (max (Int.log 2 |q|) (-126) - 23)

/-- Rounding of an exact result to binary32: the nearest multiple of the spacing, ties
to even; a result of magnitude `2 ^ 128` or more overflows to an infinity. -/
def f32 (q : ℚ) : XFloat :=
  if |(roundHalfEven (q / ulp32 q) : ℚ) * ulp32 q| < 2 ^ 128 then
    some ((roundHalfEven (q / ulp32 q) : ℚ) * ulp32 q)
  else none

/-- Conversion `int -> float`. -/
def ofInt (i : Int) : XFloat := f32 (i : ℚ)

/-- Float addition. -/
def add : XFloat → XFloat → XFloat
  | some p, some q => f32 (p + q)
  | _, _ => none

/-- Float subtraction. -/
def sub : XFloat → XFloat → XFloat
  | some p, some q => f32 (p - q)
  | _, _ => none

/-- Float multiplication. -/
def mul : XFloat → XFloat → XFloat
  | some p, some q => f32 (p * q)
  | _, _ => none

/-- Float division; a zero divisor gives a non-finite value. -/
def div : XFloat → XFloat → XFloat
  | some p, some q => if q = 0 then none else f32 (p / q)
  | _, _ => none

/-- The expression `2.0f * cell / extent - 1.0f`. -/
def ndc (cell extent : Int) : XFloat :=
  sub (div (mul (some 2) (ofInt cell)) (ofInt extent)) (some 1)

/-- The `while (true)` loop of `bresenhamLine` on 32-bit integers. -/
def bresenhamLoop {α : Type} (emit : Int → Int → List α)
    (x1 y1 dx sx dy sy : Int) : Nat → Int → Int → Int → List α → Run α
  | 0, _, _, _, _ => Run.unfinished
  | fuel + 1, x0, y0, err, vertices =>
    let vertices := vertices ++ emit x0 y0
    if x0 = x1 ∧ y0 = y1 then Run.returned vertices
    else
      let e2 := wrap32 (2 * err)
      let err1 := if e2 ≥ dy then wrap32 (err + dy) else err
      let x0 := if e2 ≥ dy then wrap32 (x0 + sx) else x0
      let err2 := if e2 ≤ dx then wrap32 (err1 + dx) else err1
      let y0 := if e2 ≤ dx then wrap32 (y0 + sy) else y0
      bresenhamLoop emit x1 y1 dx sx dy sy fuel x0 y0 err2 vertices

/-- The set-up of `bresenhamLine` followed by its loop, on 32-bit integers. -/
def bresenhamRun {α : Type} (emit : Int → Int → List α)
    (fuel : Nat) (x0 y0 x1 y1 : Int) : Run α :=
  let dx := wrap32 |wrap32 (x1 - x0)|
  let sx : Int := if x0 < x1 then 1 else -1
  let dy := wrap32 (-wrap32 |wrap32 (y1 - y0)|)
  let sy : Int := if y0 < y1 then 1 else -1
  let err := wrap32 (dx + dy)
  bresenhamLoop emit x1 y1 dx sx dy sy fuel x0 y0 err []

/-- The function `bresenhamLine` in machine arithmetic. -/
def bresenhamLine (fuel : Nat) (x0 y0 x1 y1 width height : Int) : Run XFloat :=
  bresenhamRun (fun x y => [ndc x width, ndc y height]) fuel x0 y0 x1 y1

/-- The cells that `bresenhamLine` normalises and pushes, in machine arithmetic. -/
def bresenhamCells (fuel : Nat) (x0 y0 x1 y1 : Int) : Run (Int × Int) :=
  bresenhamRun (fun x y => [(x, y)]) fuel x0 y0 x1 y1

/-- The `for` loop of `bresenhamWithXiaolin` in machine arithmetic. -/
def wuLoop {α : Type} (emit : Int → Int → XFloat → α) (steep : Bool) (gradient : XFloat)
    (x1 : Int) : Nat → Int → XFloat → List α → Run α
  | 0, _, _, _ => Run.unfinished
  | fuel + 1, x, y, vertices =>
    if x ≤ x1 then
      match y with
      | none => Run.undefined
      | some yv =>
        if -2147483648 ≤ ⌊yv⌋ ∧ ⌊yv⌋ < 2147483648 then
          let y_int : Int := ⌊yv⌋
          let frac := sub y (ofInt y_int)
          let vertices := vertices ++
            [emit (if steep then y_int else x) (if steep then x else y_int)
              (sub (some 1) frac)]
          let vertices := vertices ++
            [emit (if steep then wrap32 (y_int + 1) else x)
              (if steep then x else wrap32 (y_int + 1)) frac]
          wuLoop emit steep gradient x1 fuel (wrap32 (x + 1)) (add y gradient) vertices
        else Run.undefined
    else Run.returned vertices

/-- Lines 49 to 63 in machine arithmetic. -/
def wuSetup (x0 y0 x1 y1 : Int) : WuSetup :=
  let steep : Bool := decide (wrap32 |wrap32 (y1 - y0)| > wrap32 |wrap32 (x1 - x0)|)
  let p0 : Int × Int := if steep then (y0, x0) else (x0, y0)
  let p1 : Int × Int := if steep then (y1, x1) else (x1, y1)
  let q0 : Int × Int := if p0.1 > p1.1 then p1 else p0
  let q1 : Int × Int := if p0.1 > p1.1 then p0 else p1
  let dx := ofInt (wrap32 (q1.1 - q0.1))
  let dy := ofInt (wrap32 (q1.2 - q0.2))
  { steep := steep, x0 := q0.1, y0 := q0.2, x1 := q1.1, y1 := q1.2,
    dx := dx, dy := dy, gradient := div dy dx }

/-- The set-up of `bresenhamWithXiaolin` followed by its loop, in machine arithmetic. -/
def wuRun {α : Type} (emit : Int → Int → XFloat → α) (fuel : Nat) (x0 y0 x1 y1 : Int) :
    Run α :=
  let s := wuSetup x0 y0 x1 y1
  let y := add (ofInt s.y0) (some 0)
  wuLoop emit s.steep s.gradient s.x1 fuel s.x0 y []

/-- The function `bresenhamWithXiaolin` in machine arithmetic. -/
def bresenhamWithXiaolin (fuel : Nat) (x0 y0 x1 y1 width height : Int) : Run Vertex :=
  wuRun (fun c r w => { x := ndc c width, y := ndc r height, alpha := w }) fuel x0 y0 x1 y1

/-- The weighted cells that `bresenhamWithXiaolin` pushes, in machine arithmetic. -/
def wuCells (fuel : Nat) (x0 y0 x1 y1 : Int) : Run WCell :=
  wuRun (fun c r w => { col := c, row := r, weight := w }) fuel x0 y0 x1 y1

end Machine

/-! ## Closed forms used in the statements and proofs -/

/-- The integer nearest to `c * k / n`, a half rounded up (`0` when `n = 0`). -/
def nearest (c n k : Int) : Int := (2 * c * k + n) / (2 * n)

/-- The `t`-th state `(x0, y0, err)` at which `bresenhamLine` pushes a point,
for absolute deltas `a`, `b`, step signs `sx`, `sy` and `n = max a b`. -/
def bresenhamState (x0 y0 a b sx sy n : Int) (t : Nat) : Int × Int × Int :=
  (x0 + sx * nearest a n t, y0 + sy * nearest b n t,
    a * (nearest b n t + 1) - b * (nearest a n t + 1))

/-- Number of steps of the dominant axis. -/
def steps (x0 y0 x1 y1 : Int) : Nat := (max |x1 - x0| |y1 - y0|).toNat

/-- Step sign of an axis, as `bresenhamLine` computes it. -/
def stepSign (u0 u1 : Int) : Int := if u0 < u1 then 1 else -1

/-- The `t`-th cell of the line from `(x0, y0)` to `(x1, y1)`, in closed form. -/
def lineCell (x0 y0 x1 y1 : Int) (t : Nat) : Int × Int :=
  (x0 + stepSign x0 x1 * nearest |x1 - x0| (steps x0 y0 x1 y1) t,
   y0 + stepSign y0 y1 * nearest |y1 - y0| (steps x0 y0 x1 y1) t)

/-- The value of `err` when the `t`-th cell is pushed, in closed form. -/
def lineErr (x0 y0 x1 y1 : Int) (t : Nat) : Int :=
  |x1 - x0| * (nearest |y1 - y0| (steps x0 y0 x1 y1) t + 1)
    - |y1 - y0| * (nearest |x1 - x0| (steps x0 y0 x1 y1) t + 1)

/-- The main cell of the pair pushed at stepping coordinate `x` for the exact value `yv`
of `y`: the cell at `floor yv`, weight `1 - frac`. -/
def wuMain {α : Type} (emit : Int → Int → XFloat → α) (steep : Bool) (x : Int) (yv : ℚ) : α :=
  emit (if steep then ⌊yv⌋ else x) (if steep then x else ⌊yv⌋) (some (1 - (yv - ⌊yv⌋)))

/-- The adjacent cell of the pair: the cell at `floor yv + 1`, weight `frac`. -/
def wuAdjacent {α : Type} (emit : Int → Int → XFloat → α) (steep : Bool) (x : Int) (yv : ℚ) : α :=
  emit (if steep then ⌊yv⌋ + 1 else x) (if steep then x else ⌊yv⌋ + 1) (some (yv - ⌊yv⌋))

/-- The exact slope `(b1 - b0) / (a1 - a0)` of the ordered endpoints. -/
def wuSlope (x0 y0 x1 y1 : Int) : ℚ :=
  (((wuSetup x0 y0 x1 y1).y1 - (wuSetup x0 y0 x1 y1).y0 : Int) : ℚ) /
    (((wuSetup x0 y0 x1 y1).x1 - (wuSetup x0 y0 x1 y1).x0 : Int) : ℚ)

/-- The exact value of `y` at the `i`-th iteration of the loop. -/
def wuY (x0 y0 x1 y1 : Int) (i : Nat) : ℚ :=
  ((wuSetup x0 y0 x1 y1).y0 : ℚ) + i * wuSlope x0 y0 x1 y1

/-- Number of iterations of the loop. -/
def wuCount (x0 y0 x1 y1 : Int) : Nat :=
  ((wuSetup x0 y0 x1 y1).x1 - (wuSetup x0 y0 x1 y1).x0 + 1).toNat

/-- The endpoints in the order the loop walks them: `x` and `y` are transposed when
`|y1-y0| > |x1-x0|`, then the two endpoints are swapped when the first stepping
coordinate is the larger one.  The result is `((a0, b0), (a1, b1))`. -/
def orderedEndpoints (x0 y0 x1 y1 : Int) : (Int × Int) × (Int × Int) :=
  let p0 : Int × Int := if |y1 - y0| > |x1 - x0| then (y0, x0) else (x0, y0)
  let p1 : Int × Int := if |y1 - y0| > |x1 - x0| then (y1, x1) else (x1, y1)
  if p0.1 > p1.1 then (p1, p0) else (p0, p1)

/-- The ordinate of the ideal line at step `i`: `b0 + i*(b1-b0)/(a1-a0)`. -/
def idealY (a0 b0 a1 b1 : Int) (i : Nat) : ℚ :=
  (b0 : ℚ) + (i : ℚ) * ((b1 : ℚ) - (b0 : ℚ)) / ((a1 : ℚ) - (a0 : ℚ))

/-! ## Lemmas -/

/-! ## Closed form of the Bresenham cells -/

theorem nearest_spec (c k : Int) {n : Int} (hn : 0 < n) :
    2 * n * nearest c n k ≤ 2 * c * k + n ∧ 2 * c * k + n < 2 * n * (nearest c n k + 1) := by
  have h2 : (0 : Int) < 2 * n := by omega
  constructor
  · have := Int.ediv_mul_le (2 * c * k + n) (ne_of_gt h2)
    unfold nearest; linarith
  · have := Int.lt_ediv_add_one_mul_self (2 * c * k + n) h2
    unfold nearest; linarith

theorem nearest_unique {c k n q : Int} (hn : 0 < n)
    (h1 : 2 * n * q ≤ 2 * c * k + n) (h2 : 2 * c * k + n < 2 * n * (q + 1)) :
    nearest c n k = q := by
  have hp : (0 : Int) < 2 * n := by omega
  unfold nearest
  apply le_antisymm
  · have : (2 * c * k + n) / (2 * n) < q + 1 := by
      rw [Int.ediv_lt_iff_lt_mul hp]; linarith
    omega
  · rw [Int.le_ediv_iff_mul_le hp]; linarith

theorem nearest_self (k : Int) {n : Int} (hn : 0 < n) : nearest n n k = k :=
  nearest_unique hn (by linarith) (by linarith)

theorem nearest_zero (c : Int) {n : Int} (hn : 0 ≤ n) : nearest c n 0 = 0 := by
  rcases hn.eq_or_lt with h | h
  · subst h; simp [nearest]
  · exact nearest_unique h (by linarith) (by linarith)

theorem nearest_full {c n : Int} (hc : c ≤ n) (h0 : 0 ≤ c) : nearest c n n = c := by
  rcases (le_trans h0 hc).eq_or_lt with h | h
  · subst h
    have : c = 0 := le_antisymm hc h0
    subst this; simp [nearest]
  · exact nearest_unique h (by linarith) (by linarith)

theorem nearest_nonneg {c n k : Int} (hn : 0 < n) (hc : 0 ≤ c) (hk : 0 ≤ k) :
    0 ≤ nearest c n k := by
  have h := (nearest_spec c k hn).2
  by_contra hneg
  have h1 : nearest c n k + 1 ≤ 0 := by omega
  have h2 : 0 ≤ c * k := mul_nonneg hc hk
  nlinarith

theorem nearest_le {c n k : Int} (hn : 0 < n) (hc : 0 ≤ c) (hk : k ≤ n) :
    nearest c n k ≤ c := by
  have h := (nearest_spec c k hn).1
  by_contra hneg
  have h1 : c + 1 ≤ nearest c n k := by omega
  have h2 : c * k ≤ c * n := mul_le_mul_of_nonneg_left hk hc
  nlinarith

/-- The test `e2 >= dy` of the loop advances `x0` exactly when the nearest
integer to `a * t / n` advances. -/
theorem nearest_step_x {a b n k : Int} (hn : n = max a b) (hpos : 0 < n)
    (ha : 0 ≤ a) (hb : 0 ≤ b) :
    nearest a n (k + 1) =
      if 2 * (a * (nearest b n k + 1) - b * (nearest a n k + 1)) ≥ -b
      then nearest a n k + 1 else nearest a n k := by
  obtain ⟨i1, i2⟩ := nearest_spec a k hpos
  obtain ⟨j1, j2⟩ := nearest_spec b k hpos
  rcases le_total b a with hab | hab
  · have hna : n = a := by rw [hn]; exact max_eq_left hab
    subst hna
    rw [nearest_self _ hpos, nearest_self _ hpos] at *
    rw [if_pos (by linarith)]
  · have hnb : n = b := by rw [hn]; exact max_eq_right hab
    subst hnb
    rw [nearest_self _ hpos] at *
    split
    · exact nearest_unique hpos (by linarith) (by linarith)
    · exact nearest_unique hpos (by linarith) (by linarith)

/-- The test `e2 <= dx` of the loop advances `y0` exactly when the nearest
integer to `b * t / n` advances. -/
theorem nearest_step_y {a b n k : Int} (hn : n = max a b) (hpos : 0 < n)
    (ha : 0 ≤ a) (hb : 0 ≤ b) :
    nearest b n (k + 1) =
      if 2 * (a * (nearest b n k + 1) - b * (nearest a n k + 1)) ≤ a
      then nearest b n k + 1 else nearest b n k := by
  obtain ⟨i1, i2⟩ := nearest_spec a k hpos
  obtain ⟨j1, j2⟩ := nearest_spec b k hpos
  rcases le_total b a with hab | hab
  · have hna : n = a := by rw [hn]; exact max_eq_left hab
    subst hna
    rw [nearest_self _ hpos] at *
    split
    · exact nearest_unique hpos (by linarith) (by linarith)
    · exact nearest_unique hpos (by linarith) (by linarith)
  · have hnb : n = b := by rw [hn]; exact max_eq_right hab
    subst hnb
    rw [nearest_self _ hpos, nearest_self _ hpos] at *
    rw [if_pos (by linarith)]

theorem sign_mul_cancel {s u v : Int} (hs : s = 1 ∨ s = -1) (h : s * u = s * v) : u = v := by
  rcases hs with h1 | h1 <;> subst h1 <;> omega

/-- From the `k`-th state, with fuel for the `m + 1` iterations that remain,
the loop pushes the states `k, ..., k + m` and returns. -/
theorem bresenhamLoop_states {α : Type} (emit : Int → Int → Int → List α)
    (x0 y0 a b sx sy : Int) (n : Nat) (hn : (n : Int) = max a b)
    (ha : 0 ≤ a) (hb : 0 ≤ b) (hsx : sx = 1 ∨ sx = -1) (hsy : sy = 1 ∨ sy = -1) :
    ∀ (m k : Nat), k + m = n → ∀ (fuel : Nat) (acc : List α), m + 1 ≤ fuel →
      bresenhamLoop emit (x0 + sx * a) (y0 + sy * b) a sx (-b) sy fuel
          (bresenhamState x0 y0 a b sx sy n k).1
          (bresenhamState x0 y0 a b sx sy n k).2.1
          (bresenhamState x0 y0 a b sx sy n k).2.2 acc
        = some (acc ++ (List.range' k (m + 1)).flatMap fun t =>
            emit (bresenhamState x0 y0 a b sx sy n t).1
              (bresenhamState x0 y0 a b sx sy n t).2.1
              (bresenhamState x0 y0 a b sx sy n t).2.2) := by
  have han : a ≤ n := by rw [hn]; exact le_max_left a b
  have hbn : b ≤ n := by rw [hn]; exact le_max_right a b
  intro m
  induction m with
  | zero =>
    intro k hk fuel acc hfuel
    obtain ⟨f, rfl⟩ : ∃ f, fuel = f + 1 := ⟨fuel - 1, by omega⟩
    have hkn : k = n := by omega
    subst hkn
    simp [bresenhamLoop, bresenhamState, nearest_full han ha, nearest_full hbn hb]
  | succ m ih =>
    intro k hk fuel acc hfuel
    obtain ⟨f, rfl⟩ : ∃ f, fuel = f + 1 := ⟨fuel - 1, by omega⟩
    have hkn : (k : Int) < n := by omega
    have hpos : (0 : Int) < n := by omega
    have hne : ¬ ((bresenhamState x0 y0 a b sx sy n k).1 = x0 + sx * a ∧
        (bresenhamState x0 y0 a b sx sy n k).2.1 = y0 + sy * b) := by
      rintro ⟨h1, h2⟩
      simp only [bresenhamState] at h1 h2
      have e1 : nearest a n k = a := sign_mul_cancel hsx (by linarith)
      have e2 : nearest b n k = b := sign_mul_cancel hsy (by linarith)
      rcases le_total b a with hab | hab
      · have hna : (n : Int) = a := by rw [hn]; exact max_eq_left hab
        rw [← hna, nearest_self _ hpos] at e1
        omega
      · have hnb : (n : Int) = b := by rw [hn]; exact max_eq_right hab
        rw [← hnb, nearest_self _ hpos] at e2
        omega
    have hx := nearest_step_x (k := k) hn hpos ha hb
    have hy := nearest_step_y (k := k) hn hpos ha hb
    have hnext := ih (k + 1) (by omega) f
      (acc ++ emit (bresenhamState x0 y0 a b sx sy n k).1
        (bresenhamState x0 y0 a b sx sy n k).2.1
        (bresenhamState x0 y0 a b sx sy n k).2.2) (by omega)
    rw [bresenhamLoop]
    simp only [if_neg hne]
    rw [List.range'_succ, List.flatMap_cons, ← List.append_assoc, ← hnext]
    congr 1
    · simp only [bresenhamState, Nat.cast_add, Nat.cast_one, hx]
      split <;> ring
    · simp only [bresenhamState, Nat.cast_add, Nat.cast_one, hy]
      split <;> ring
    · simp only [bresenhamState, Nat.cast_add, Nat.cast_one, hx, hy]
      split <;> split <;> ring

theorem steps_cast (x0 y0 x1 y1 : Int) :
    ((steps x0 y0 x1 y1 : Nat) : Int) = max |x1 - x0| |y1 - y0| := by
  unfold steps
  exact Int.toNat_of_nonneg (le_max_of_le_left (abs_nonneg _))

theorem stepSign_cases (u0 u1 : Int) : stepSign u0 u1 = 1 ∨ stepSign u0 u1 = -1 := by
  unfold stepSign; split <;> simp

theorem stepSign_target (u0 u1 : Int) : u0 + stepSign u0 u1 * |u1 - u0| = u1 := by
  unfold stepSign
  split
  · rw [abs_of_pos (by omega)]; ring
  · rw [abs_of_nonpos (by omega)]; ring

/-- With enough fuel `bresenhamLine` returns, and what it has pushed is the
emission of the `steps + 1` closed-form states in order. -/
theorem bresenhamRun_closed {α : Type} (emit : Int → Int → Int → List α)
    (x0 y0 x1 y1 : Int) (fuel : Nat) (hfuel : steps x0 y0 x1 y1 + 1 ≤ fuel) :
    bresenhamRun emit fuel x0 y0 x1 y1 =
      some ((List.range (steps x0 y0 x1 y1 + 1)).flatMap fun t =>
        emit (lineCell x0 y0 x1 y1 t).1 (lineCell x0 y0 x1 y1 t).2 (lineErr x0 y0 x1 y1 t)) := by
  have h := bresenhamLoop_states emit x0 y0 |x1 - x0| |y1 - y0| (stepSign x0 x1) (stepSign y0 y1)
    (steps x0 y0 x1 y1) (steps_cast x0 y0 x1 y1) (abs_nonneg _) (abs_nonneg _)
    (stepSign_cases _ _) (stepSign_cases _ _) (steps x0 y0 x1 y1) 0 (by omega) fuel [] hfuel
  have hn0 : (0 : Int) ≤ steps x0 y0 x1 y1 := Int.ofNat_nonneg _
  simp only [bresenhamState, stepSign_target, Nat.cast_zero, nearest_zero _ hn0, mul_zero,
    add_zero, zero_add, mul_one, List.nil_append] at h
  unfold bresenhamRun
  simp only [lineCell, lineErr, List.range_eq_range']
  rw [← h]
  simp only [stepSign, sub_eq_add_neg]

theorem delta_eq (u0 u1 : Int) : u1 - u0 = stepSign u0 u1 * |u1 - u0| := by
  have := stepSign_target u0 u1; linarith

theorem flatMap_singleton_fn {α β : Type} (f : α → β) (l : List α) :
    (l.flatMap fun t => [f t]) = l.map f := by
  induction l with
  | nil => rfl
  | cons a l ih => simp [List.flatMap_cons, ih]

theorem flatMap_map_fn {α β γ : Type} (f : α → β) (g : β → List γ) (l : List α) :
    (l.flatMap fun t => g (f t)) = (l.map f).flatMap g := by
  induction l with
  | nil => rfl
  | cons a l ih => simp [List.flatMap_cons, ih]

/-- With enough fuel the cells pushed are the closed-form cells `0, ..., steps`. -/
theorem bresenhamCells_closed (x0 y0 x1 y1 : Int) (fuel : Nat)
    (hfuel : steps x0 y0 x1 y1 + 1 ≤ fuel) :
    bresenhamCells fuel x0 y0 x1 y1 =
      some ((List.range (steps x0 y0 x1 y1 + 1)).map (lineCell x0 y0 x1 y1)) := by
  unfold bresenhamCells
  rw [bresenhamRun_closed _ x0 y0 x1 y1 fuel hfuel, flatMap_singleton_fn]

/-- The output of `bresenhamLine` is the normalisation of the cells, two floats per cell. -/
theorem bresenhamLine_closed (x0 y0 x1 y1 width height : Int) (fuel : Nat)
    (hfuel : steps x0 y0 x1 y1 + 1 ≤ fuel) :
    bresenhamLine fuel x0 y0 x1 y1 width height =
      some (((List.range (steps x0 y0 x1 y1 + 1)).map (lineCell x0 y0 x1 y1)).flatMap
        fun c => [ndc c.1 width, ndc c.2 height]) := by
  unfold bresenhamLine
  rw [bresenhamRun_closed _ x0 y0 x1 y1 fuel hfuel,
    ← flatMap_map_fn (lineCell x0 y0 x1 y1) (fun c => [ndc c.1 width, ndc c.2 height])]

theorem bresenhamTrace_closed (x0 y0 x1 y1 : Int) (fuel : Nat)
    (hfuel : steps x0 y0 x1 y1 + 1 ≤ fuel) :
    bresenhamTrace fuel x0 y0 x1 y1 =
      some ((List.range (steps x0 y0 x1 y1 + 1)).map fun t =>
        ((lineCell x0 y0 x1 y1 t).1, (lineCell x0 y0 x1 y1 t).2, lineErr x0 y0 x1 y1 t)) := by
  unfold bresenhamTrace
  rw [bresenhamRun_closed _ x0 y0 x1 y1 fuel hfuel, flatMap_singleton_fn]

theorem lineCell_zero (x0 y0 x1 y1 : Int) : lineCell x0 y0 x1 y1 0 = (x0, y0) := by
  have hn0 : (0 : Int) ≤ steps x0 y0 x1 y1 := Int.ofNat_nonneg _
  simp [lineCell, nearest_zero _ hn0]

theorem lineCell_last (x0 y0 x1 y1 : Int) :
    lineCell x0 y0 x1 y1 (steps x0 y0 x1 y1) = (x1, y1) := by
  have hc := steps_cast x0 y0 x1 y1
  have ha : |x1 - x0| ≤ (steps x0 y0 x1 y1 : Int) := by rw [hc]; exact le_max_left _ _
  have hb : |y1 - y0| ≤ (steps x0 y0 x1 y1 : Int) := by rw [hc]; exact le_max_right _ _
  simp only [lineCell, nearest_full ha (abs_nonneg _), nearest_full hb (abs_nonneg _),
    stepSign_target]

/-- Along an axis whose delta is the larger one the `t`-th cell is `t` steps from the start. -/
theorem lineCell_dominant_x (x0 y0 x1 y1 : Int) (t : Nat) (ht : t ≤ steps x0 y0 x1 y1)
    (h : |x1 - x0| = max |x1 - x0| |y1 - y0|) :
    (lineCell x0 y0 x1 y1 t).1 = x0 + t * stepSign x0 x1 := by
  have hc := steps_cast x0 y0 x1 y1
  rcases Nat.eq_zero_or_pos (steps x0 y0 x1 y1) with h0 | hpos
  · have hz : |x1 - x0| = 0 := by rw [h, ← hc, h0]; rfl
    have ht0 : t = 0 := by omega
    simp [lineCell, h0, nearest, hz, ht0]
  · have hp : (0 : Int) < steps x0 y0 x1 y1 := by exact_mod_cast hpos
    simp only [lineCell]
    rw [h, ← hc, nearest_self _ hp]; ring

theorem lineCell_dominant_y (x0 y0 x1 y1 : Int) (t : Nat) (ht : t ≤ steps x0 y0 x1 y1)
    (h : |y1 - y0| = max |x1 - x0| |y1 - y0|) :
    (lineCell x0 y0 x1 y1 t).2 = y0 + t * stepSign y0 y1 := by
  have hc := steps_cast x0 y0 x1 y1
  rcases Nat.eq_zero_or_pos (steps x0 y0 x1 y1) with h0 | hpos
  · have hz : |y1 - y0| = 0 := by rw [h, ← hc, h0]; rfl
    have ht0 : t = 0 := by omega
    simp [lineCell, h0, nearest, hz, ht0]
  · have hp : (0 : Int) < steps x0 y0 x1 y1 := by exact_mod_cast hpos
    simp only [lineCell]
    rw [h, ← hc, nearest_self _ hp]; ring

theorem lineCell_injOn (x0 y0 x1 y1 : Int) (s t : Nat) (hs : s ≤ steps x0 y0 x1 y1)
    (ht : t ≤ steps x0 y0 x1 y1) (hst : lineCell x0 y0 x1 y1 s = lineCell x0 y0 x1 y1 t) :
    s = t := by
  rcases le_total |y1 - y0| |x1 - x0| with hab | hab
  · have h1 := lineCell_dominant_x x0 y0 x1 y1 s hs (max_eq_left hab).symm
    have h2 := lineCell_dominant_x x0 y0 x1 y1 t ht (max_eq_left hab).symm
    rw [hst, h2] at h1
    have : (s : Int) = t := by
      rcases stepSign_cases x0 x1 with h | h <;> rw [h] at h1 <;> omega
    exact_mod_cast this
  · have h1 := lineCell_dominant_y x0 y0 x1 y1 s hs (max_eq_right hab).symm
    have h2 := lineCell_dominant_y x0 y0 x1 y1 t ht (max_eq_right hab).symm
    rw [hst, h2] at h1
    have : (s : Int) = t := by
      rcases stepSign_cases y0 y1 with h | h <;> rw [h] at h1 <;> omega
    exact_mod_cast this

theorem lineCells_nodup (x0 y0 x1 y1 : Int) :
    ((List.range (steps x0 y0 x1 y1 + 1)).map (lineCell x0 y0 x1 y1)).Nodup := by
  apply List.Nodup.map_on _ (List.nodup_range _)
  intro s hs t ht hst
  rw [List.mem_range] at hs ht
  exact lineCell_injOn x0 y0 x1 y1 s t (by omega) (by omega) hst

theorem nearest_range {c n t : Int} (hc0 : 0 ≤ c) (hcn : c ≤ n) (ht0 : 0 ≤ t) (htn : t ≤ n) :
    0 ≤ nearest c n t ∧ nearest c n t ≤ c := by
  rcases (le_trans hc0 hcn).eq_or_lt with h | h
  · subst h
    have : c = 0 := le_antisymm hcn hc0
    subst this; simp [nearest]
  · exact ⟨nearest_nonneg h hc0 ht0, nearest_le h hc0 htn⟩

/-- The pushed cell is within half a cell of the ideal line, measured on the minor axis:
`-n < 2 * (a * j - b * i) <= n` up to the orientation of the dominant axis. -/
theorem nearest_cross {a b n : Int} (t : Int) (hn : n = max a b) (ha : 0 ≤ a) (hb : 0 ≤ b) :
    |2 * (a * nearest b n t - b * nearest a n t)| ≤ n := by
  have hn0 : 0 ≤ n := by rw [hn]; exact le_max_of_le_left ha
  rcases hn0.eq_or_lt with h | hpos
  · have ha0 : a = 0 := le_antisymm (by rw [h, hn]; exact le_max_left a b) ha
    have hb0 : b = 0 := le_antisymm (by rw [h, hn]; exact le_max_right a b) hb
    subst ha0 hb0
    simp [← h]
  · obtain ⟨i1, i2⟩ := nearest_spec a t hpos
    obtain ⟨j1, j2⟩ := nearest_spec b t hpos
    rw [abs_le]
    rcases le_total b a with hab | hab
    · have hna : n = a := by rw [hn]; exact max_eq_left hab
      subst hna
      rw [nearest_self _ hpos] at *
      constructor <;> linarith
    · have hnb : n = b := by rw [hn]; exact max_eq_right hab
      subst hnb
      rw [nearest_self _ hpos] at *
      constructor <;> linarith

theorem abs_sign_mul {s : Int} (hs : s = 1 ∨ s = -1) (u : Int) : |s * u| = |u| := by
  rcases hs with h | h <;> subst h <;> simp

/-- The quantity `(x1-x0)*(y-y0) - (y1-y0)*(x-x0)` at the `t`-th cell. -/
theorem lineCell_cross (x0 y0 x1 y1 : Int) (t : Nat) :
    2 * |(x1 - x0) * ((lineCell x0 y0 x1 y1 t).2 - y0)
        - (y1 - y0) * ((lineCell x0 y0 x1 y1 t).1 - x0)|
      = |2 * (|x1 - x0| * nearest |y1 - y0| (steps x0 y0 x1 y1) t
          - |y1 - y0| * nearest |x1 - x0| (steps x0 y0 x1 y1) t)| := by
  simp only [lineCell]
  have e : ∀ p q sx sy a b i j : Int, p = sx * a → q = sy * b →
      p * (y0 + sy * j - y0) - q * (x0 + sx * i - x0) = sx * (sy * (a * j - b * i)) := by
    intro p q sx sy a b i j hp hq
    subst hp hq
    ring
  rw [e _ _ _ _ _ _ _ _ (delta_eq x0 x1) (delta_eq y0 y1)]
  rw [abs_sign_mul (stepSign_cases _ _), abs_sign_mul (stepSign_cases _ _), abs_mul]
  simp

theorem lineCell_bound (x0 y0 x1 y1 : Int) (t : Nat) :
    2 * |(x1 - x0) * ((lineCell x0 y0 x1 y1 t).2 - y0)
        - (y1 - y0) * ((lineCell x0 y0 x1 y1 t).1 - x0)|
      ≤ max |x1 - x0| |y1 - y0| := by
  rw [lineCell_cross, ← steps_cast x0 y0 x1 y1]
  exact nearest_cross _ (steps_cast x0 y0 x1 y1) (abs_nonneg _) (abs_nonneg _)

/-- Step counts of the `t`-th cell: both are natural numbers within the deltas. -/
theorem lineCell_counts (x0 y0 x1 y1 : Int) (t : Nat) (ht : t ≤ steps x0 y0 x1 y1) :
    ∃ i j : Nat, (i : Int) = nearest |x1 - x0| (steps x0 y0 x1 y1) t ∧
      (j : Int) = nearest |y1 - y0| (steps x0 y0 x1 y1) t ∧
      (i : Int) ≤ |x1 - x0| ∧ (j : Int) ≤ |y1 - y0| := by
  have hc := steps_cast x0 y0 x1 y1
  have ha : |x1 - x0| ≤ (steps x0 y0 x1 y1 : Int) := by rw [hc]; exact le_max_left _ _
  have hb : |y1 - y0| ≤ (steps x0 y0 x1 y1 : Int) := by rw [hc]; exact le_max_right _ _
  have ht0 : (0 : Int) ≤ t := Int.ofNat_nonneg _
  have htn : (t : Int) ≤ steps x0 y0 x1 y1 := by exact_mod_cast ht
  obtain ⟨i0, i1⟩ := nearest_range (abs_nonneg _) ha ht0 htn
  obtain ⟨j0, j1⟩ := nearest_range (abs_nonneg _) hb ht0 htn
  refine ⟨(nearest |x1 - x0| (steps x0 y0 x1 y1) t).toNat,
    (nearest |y1 - y0| (steps x0 y0 x1 y1) t).toNat, ?_, ?_, ?_, ?_⟩
  · exact Int.toNat_of_nonneg i0
  · exact Int.toNat_of_nonneg j0
  · rw [Int.toNat_of_nonneg i0]; exact i1
  · rw [Int.toNat_of_nonneg j0]; exact j1

theorem wuLoop_finite {α : Type} (emit : Int → Int → XFloat → α) (steep : Bool) (g : ℚ) :
    ∀ (n : Nat) (x : Int) (yv : ℚ) (acc : List α),
      wuLoop emit steep (some g) n x (some yv) acc =
        some (acc ++ (List.range n).flatMap fun i =>
          [wuMain emit steep (x + i) (yv + i * g), wuAdjacent emit steep (x + i) (yv + i * g)]) := by
  intro n
  induction n with
  | zero => intro x yv acc; simp [wuLoop]
  | succ n ih =>
    intro x yv acc
    simp only [wuLoop, XFloat.add, XFloat.sub, XFloat.ofInt]
    rw [ih, List.range_succ_eq_map, List.flatMap_cons]
    simp only [List.append_assoc, Option.some.injEq, List.append_cancel_left_eq, wuMain,
      wuAdjacent, Nat.cast_zero, add_zero, zero_mul]
    simp only [List.singleton_append, List.cons_append, List.nil_append, List.cons.injEq,
      true_and]
    rw [List.flatMap_map]
    congr 1
    funext i
    simp only [Function.comp_apply, Nat.cast_succ]
    have e1 : x + 1 + (i : Int) = x + ((i : Int) + 1) := by ring
    have e2 : yv + g + (i : ℚ) * g = yv + ((i : ℚ) + 1) * g := by ring
    rw [e1, e2]

theorem wuLoop_once {α : Type} (emit : Int → Int → XFloat → α) (steep : Bool) (gradient : XFloat)
    (x : Int) (yv : ℚ) (acc : List α) :
    wuLoop emit steep gradient 1 x (some yv) acc =
      some (acc ++ [wuMain emit steep x yv, wuAdjacent emit steep x yv]) := by
  simp [wuLoop, XFloat.sub, XFloat.ofInt, wuMain, wuAdjacent]

theorem wuSetup_le (x0 y0 x1 y1 : Int) :
    (wuSetup x0 y0 x1 y1).x0 ≤ (wuSetup x0 y0 x1 y1).x1 := by
  simp only [wuSetup]
  split_ifs <;> omega

theorem wuSetup_eq_iff (x0 y0 x1 y1 : Int) :
    (wuSetup x0 y0 x1 y1).x1 = (wuSetup x0 y0 x1 y1).x0 ↔ (x0, y0) = (x1, y1) := by
  simp only [wuSetup, gt_iff_lt, decide_eq_true_eq, Prod.mk.injEq]
  rcases abs_cases (y1 - y0) with ⟨h1, h2⟩ | ⟨h1, h2⟩ <;>
  rcases abs_cases (x1 - x0) with ⟨h3, h4⟩ | ⟨h3, h4⟩ <;>
  split_ifs <;> constructor <;> intro h <;> omega

theorem wuCount_pos (x0 y0 x1 y1 : Int) : 0 < wuCount x0 y0 x1 y1 := by
  have := wuSetup_le x0 y0 x1 y1
  unfold wuCount; omega

theorem wuCount_cast (x0 y0 x1 y1 : Int) :
    (wuCount x0 y0 x1 y1 : Int) = (wuSetup x0 y0 x1 y1).x1 - (wuSetup x0 y0 x1 y1).x0 + 1 := by
  have := wuSetup_le x0 y0 x1 y1
  unfold wuCount; omega

theorem wuSetup_gradient (x0 y0 x1 y1 : Int) :
    (wuSetup x0 y0 x1 y1).gradient =
      XFloat.div (XFloat.ofInt ((wuSetup x0 y0 x1 y1).y1 - (wuSetup x0 y0 x1 y1).y0))
        (XFloat.ofInt ((wuSetup x0 y0 x1 y1).x1 - (wuSetup x0 y0 x1 y1).x0)) := rfl

theorem wuSetup_gradient_finite (x0 y0 x1 y1 : Int)
    (hd : (wuSetup x0 y0 x1 y1).x1 ≠ (wuSetup x0 y0 x1 y1).x0) :
    (wuSetup x0 y0 x1 y1).gradient = some (wuSlope x0 y0 x1 y1) := by
  have hq : (((wuSetup x0 y0 x1 y1).x1 - (wuSetup x0 y0 x1 y1).x0 : Int) : ℚ) ≠ 0 := by
    intro h
    have : (wuSetup x0 y0 x1 y1).x1 - (wuSetup x0 y0 x1 y1).x0 = 0 := by exact_mod_cast h
    omega
  rw [wuSetup_gradient]
  simp only [XFloat.div, XFloat.ofInt, if_neg hq, wuSlope]

/-- The function returns for every input, and what it has pushed is one pair per value
of the stepping coordinate, computed from the exact value of `y`. -/
theorem wuRun_closed {α : Type} (emit : Int → Int → XFloat → α) (x0 y0 x1 y1 : Int) :
    wuRun emit x0 y0 x1 y1 =
      some ((List.range (wuCount x0 y0 x1 y1)).flatMap fun i =>
        [wuMain emit (wuSetup x0 y0 x1 y1).steep ((wuSetup x0 y0 x1 y1).x0 + i)
            (wuY x0 y0 x1 y1 i),
         wuAdjacent emit (wuSetup x0 y0 x1 y1).steep ((wuSetup x0 y0 x1 y1).x0 + i)
            (wuY x0 y0 x1 y1 i)]) := by
  have hy : XFloat.add (XFloat.ofInt (wuSetup x0 y0 x1 y1).y0) (some 0) =
      some ((wuSetup x0 y0 x1 y1).y0 : ℚ) := by
    simp [XFloat.add, XFloat.ofInt]
  unfold wuRun
  simp only [hy]
  by_cases hd : (wuSetup x0 y0 x1 y1).x1 = (wuSetup x0 y0 x1 y1).x0
  · have hc : wuCount x0 y0 x1 y1 = 1 := by unfold wuCount; rw [hd]; simp
    have hc' : ((wuSetup x0 y0 x1 y1).x1 - (wuSetup x0 y0 x1 y1).x0 + 1).toNat = 1 := hc
    rw [hc', hc, wuLoop_once]
    simp [wuY, List.range_succ, List.flatMap_cons]
  · have hg := wuSetup_gradient_finite x0 y0 x1 y1 hd
    rw [hg, wuLoop_finite]
    simp only [List.nil_append, wuY, wuCount]

theorem ndc_of_ne (c : Int) {e : Int} (he : e ≠ 0) :
    ndc c e = some (2 * (c : ℚ) / (e : ℚ) - 1) := by
  have : (e : ℚ) ≠ 0 := by exact_mod_cast he
  simp [ndc, XFloat.sub, XFloat.div, XFloat.mul, XFloat.ofInt, this]

theorem pairs_length {α : Type} (f g : Nat → α) (m : Nat) :
    ((List.range m).flatMap fun i => [f i, g i]).length = 2 * m := by
  induction m with
  | zero => rfl
  | succ m ih =>
    rw [List.range_succ, List.flatMap_append, List.length_append, ih]
    simp
    omega

theorem pairs_getElem {α : Type} (f g : Nat → α) (m i : Nat) (hi : i < m) :
    ((List.range m).flatMap fun i => [f i, g i])[2 * i]? = some (f i) ∧
    ((List.range m).flatMap fun i => [f i, g i])[2 * i + 1]? = some (g i) := by
  induction m with
  | zero => omega
  | succ m ih =>
    rw [List.range_succ, List.flatMap_append]
    have hl := pairs_length f g m
    rcases Nat.lt_succ_iff_lt_or_eq.mp hi with h | h
    · obtain ⟨h1, h2⟩ := ih h
      rw [List.getElem?_append_left (by omega), List.getElem?_append_left (by omega)]
      exact ⟨h1, h2⟩
    · subst h
      rw [List.getElem?_append_right (by omega), List.getElem?_append_right (by omega), hl]
      simp

theorem bresenhamWithXiaolin_closed (x0 y0 x1 y1 width height : Int) :
    bresenhamWithXiaolin x0 y0 x1 y1 width height =
      some ((List.range (wuCount x0 y0 x1 y1)).flatMap fun i =>
        [wuMain (fun c r w => { x := ndc c width, y := ndc r height, alpha := w })
            (wuSetup x0 y0 x1 y1).steep ((wuSetup x0 y0 x1 y1).x0 + i) (wuY x0 y0 x1 y1 i),
         wuAdjacent (fun c r w => { x := ndc c width, y := ndc r height, alpha := w })
            (wuSetup x0 y0 x1 y1).steep ((wuSetup x0 y0 x1 y1).x0 + i) (wuY x0 y0 x1 y1 i)]) :=
  wuRun_closed _ x0 y0 x1 y1

theorem wuCells_closed (x0 y0 x1 y1 : Int) :
    wuCells x0 y0 x1 y1 =
      some ((List.range (wuCount x0 y0 x1 y1)).flatMap fun i =>
        [wuMain (fun c r w => { col := c, row := r, weight := w })
            (wuSetup x0 y0 x1 y1).steep ((wuSetup x0 y0 x1 y1).x0 + i) (wuY x0 y0 x1 y1 i),
         wuAdjacent (fun c r w => { col := c, row := r, weight := w })
            (wuSetup x0 y0 x1 y1).steep ((wuSetup x0 y0 x1 y1).x0 + i) (wuY x0 y0 x1 y1 i)]) :=
  wuRun_closed _ x0 y0 x1 y1

/-- The vertices are the normalisation of the weighted cells, one for one. -/
theorem bresenhamWithXiaolin_eq_map (x0 y0 x1 y1 width height : Int) :
    bresenhamWithXiaolin x0 y0 x1 y1 width height =
      (wuCells x0 y0 x1 y1).map
        (List.map fun c => { x := ndc c.col width, y := ndc c.row height, alpha := c.weight }) := by
  rw [bresenhamWithXiaolin_closed, wuCells_closed]
  simp [List.map_flatMap, wuMain, wuAdjacent]

theorem wuSetup_ordered (x0 y0 x1 y1 : Int) :
    orderedEndpoints x0 y0 x1 y1 =
      (((wuSetup x0 y0 x1 y1).x0, (wuSetup x0 y0 x1 y1).y0),
       ((wuSetup x0 y0 x1 y1).x1, (wuSetup x0 y0 x1 y1).y1)) := by
  simp only [orderedEndpoints, wuSetup, gt_iff_lt, decide_eq_true_eq]
  split_ifs <;> rfl

theorem wuSetup_steep (x0 y0 x1 y1 : Int) :
    (wuSetup x0 y0 x1 y1).steep = decide (|y1 - y0| > |x1 - x0|) := rfl

theorem wuY_eq_idealY (x0 y0 x1 y1 : Int) (i : Nat) :
    wuY x0 y0 x1 y1 i =
      idealY (wuSetup x0 y0 x1 y1).x0 (wuSetup x0 y0 x1 y1).y0
        (wuSetup x0 y0 x1 y1).x1 (wuSetup x0 y0 x1 y1).y1 i := by
  simp only [wuY, wuSlope, idealY, Int.cast_sub]
  rw [mul_div_assoc]

end Raster

open Raster

/-! ## The claims -/

/-- C1: over unbounded integers `bresenhamLine` returns for every pair of endpoints once
it has fuel for `n + 1` iterations, `n = max(|x1-x0|, |y1-y0|)`.  The cells it pushes
(its output is their normalisation) are `n + 1` in number, begin with `(x0, y0)`, end
with `(x1, y1)`, contain no cell twice (so each endpoint occurs exactly once), and along an axis whose `|delta|`
is `n` the `i`-th cell has coordinate `start + i * sign`. -/
theorem bresenhamLine_endpoints_dominant_axis (x0 y0 x1 y1 : Int) :
    ∃ cells : List (Int × Int),
      (∀ fuel : Nat, (max |x1 - x0| |y1 - y0|).toNat + 1 ≤ fuel →
        bresenhamCells fuel x0 y0 x1 y1 = some cells ∧
        ∀ width height : Int, bresenhamLine fuel x0 y0 x1 y1 width height =
          some (cells.flatMap fun c => [ndc c.1 width, ndc c.2 height])) ∧
      (cells.length : Int) = max |x1 - x0| |y1 - y0| + 1 ∧
      cells.head? = some (x0, y0) ∧
      cells.getLast? = some (x1, y1) ∧
      cells.Nodup ∧
      (|x1 - x0| = max |x1 - x0| |y1 - y0| → ∀ i : Nat, i < cells.length →
        (cells.map Prod.fst)[i]? = some (x0 + i * (if x0 < x1 then 1 else -1))) ∧
      (|y1 - y0| = max |x1 - x0| |y1 - y0| → ∀ i : Nat, i < cells.length →
        (cells.map Prod.snd)[i]? = some (y0 + i * (if y0 < y1 then 1 else -1))) := by
  refine ⟨(List.range (steps x0 y0 x1 y1 + 1)).map (lineCell x0 y0 x1 y1), ?_, ?_, ?_, ?_,
    lineCells_nodup x0 y0 x1 y1, ?_, ?_⟩
  · intro fuel hfuel
    exact ⟨bresenhamCells_closed x0 y0 x1 y1 fuel hfuel,
      fun width height => bresenhamLine_closed x0 y0 x1 y1 width height fuel hfuel⟩
  · simp [steps_cast]
  · simp [List.range_succ_eq_map, lineCell_zero]
  · simp [List.range_succ, lineCell_last]
  · intro h i hi
    simp only [List.length_map, List.length_range] at hi
    simp only [List.map_map, List.getElem?_map, List.getElem?_range hi, Option.map_some',
      Function.comp_apply]
    rw [lineCell_dominant_x x0 y0 x1 y1 i (by omega) h]; rfl
  · intro h i hi
    simp only [List.length_map, List.length_range] at hi
    simp only [List.map_map, List.getElem?_map, List.getElem?_range hi, Option.map_some',
      Function.comp_apply]
    rw [lineCell_dominant_y x0 y0 x1 y1 i (by omega) h]; rfl

/-- C10: every state `(x, y, err)` at which `bresenhamLine` pushes a point satisfies
`2 * |(x1-x0)*(y-y0) - (y1-y0)*(x-x0)| <= max(|x1-x0|, |y1-y0|)`, and `err` equals
`dx*(j+1) - |dy|*(i+1)` where `i` and `j` count the steps taken along x and along y. -/
theorem bresenhamLine_half_cell_bound (x0 y0 x1 y1 : Int) (fuel : Nat)
    (hfuel : (max |x1 - x0| |y1 - y0|).toNat + 1 ≤ fuel) :
    ∃ tr : List (Int × Int × Int),
      bresenhamTrace fuel x0 y0 x1 y1 = some tr ∧
      bresenhamCells fuel x0 y0 x1 y1 = some (tr.map fun s => (s.1, s.2.1)) ∧
      ∀ s ∈ tr,
        2 * |(x1 - x0) * (s.2.1 - y0) - (y1 - y0) * (s.1 - x0)| ≤ max |x1 - x0| |y1 - y0| ∧
        ∃ i j : Nat,
          s.1 = x0 + i * (if x0 < x1 then 1 else -1) ∧
          s.2.1 = y0 + j * (if y0 < y1 then 1 else -1) ∧
          s.2.2 = |x1 - x0| * (j + 1) - |y1 - y0| * (i + 1) := by
  refine ⟨_, bresenhamTrace_closed x0 y0 x1 y1 fuel hfuel, ?_, ?_⟩
  · rw [bresenhamCells_closed x0 y0 x1 y1 fuel hfuel, List.map_map]; rfl
  · intro s hs
    rw [List.mem_map] at hs
    obtain ⟨t, ht, rfl⟩ := hs
    rw [List.mem_range] at ht
    refine ⟨lineCell_bound x0 y0 x1 y1 t, ?_⟩
    obtain ⟨i, j, hi, hj, -, -⟩ := lineCell_counts x0 y0 x1 y1 t (by omega)
    refine ⟨i, j, ?_, ?_, ?_⟩
    · simp only [lineCell, hi]; rw [mul_comm]; rfl
    · simp only [lineCell, hj]; rw [mul_comm]; rfl
    · simp only [lineErr, hi, hj]

/-- Witness for C10 at the line from (0,0) to (2,1) with fuel 3. -/
theorem bresenhamLine_half_cell_bound_witness :
    ∃ tr : List (Int × Int × Int),
      bresenhamTrace 3 0 0 2 1 = some tr ∧
      bresenhamCells 3 0 0 2 1 = some (tr.map fun s => (s.1, s.2.1)) ∧
      ∀ s ∈ tr,
        2 * |(2 - 0) * (s.2.1 - 0) - (1 - 0) * (s.1 - 0)| ≤ max |(2 : Int) - 0| |(1 : Int) - 0| ∧
        ∃ i j : Nat,
          s.1 = 0 + i * (if (0 : Int) < 2 then 1 else -1) ∧
          s.2.1 = 0 + j * (if (0 : Int) < 1 then 1 else -1) ∧
          s.2.2 = |(2 : Int) - 0| * (j + 1) - |(1 : Int) - 0| * (i + 1) :=
  bresenhamLine_half_cell_bound 0 0 2 1 3 (by decide)

/-- C3: for all integer endpoints and all extents (in particular positive ones), the
output of `bresenhamWithXiaolin` in exact arithmetic has an even number of vertices,
and the vertices at positions `2k` and `2k+1` have weights in `[0, 1]` that sum to `1`. -/
theorem wu_pair_weights_sum_to_one (x0 y0 x1 y1 width height : Int) :
    ∃ (out : List Vertex) (m : Nat),
      bresenhamWithXiaolin x0 y0 x1 y1 width height = some out ∧
      out.length = 2 * m ∧
      ∀ k : Nat, k < m → ∃ (v w : Vertex) (a b : ℚ),
        out[2 * k]? = some v ∧ out[2 * k + 1]? = some w ∧
        v.alpha = some a ∧ w.alpha = some b ∧
        0 ≤ a ∧ a ≤ 1 ∧ 0 ≤ b ∧ b ≤ 1 ∧ a + b = 1 := by
  refine ⟨_, wuCount x0 y0 x1 y1, bresenhamWithXiaolin_closed x0 y0 x1 y1 width height,
    pairs_length _ _ _, ?_⟩
  intro k hk
  obtain ⟨h1, h2⟩ := pairs_getElem
    (fun i => wuMain (fun c r w => ({ x := ndc c width, y := ndc r height, alpha := w } : Vertex))
      (wuSetup x0 y0 x1 y1).steep ((wuSetup x0 y0 x1 y1).x0 + i) (wuY x0 y0 x1 y1 i))
    (fun i => wuAdjacent (fun c r w => ({ x := ndc c width, y := ndc r height, alpha := w } : Vertex))
      (wuSetup x0 y0 x1 y1).steep ((wuSetup x0 y0 x1 y1).x0 + i) (wuY x0 y0 x1 y1 i))
    (wuCount x0 y0 x1 y1) k hk
  refine ⟨_, _, _, _, h1, h2, rfl, rfl, ?_⟩
  have f0 := Int.floor_le (wuY x0 y0 x1 y1 k)
  have f1 := Int.lt_floor_add_one (wuY x0 y0 x1 y1 k)
  refine ⟨?_, ?_, ?_, ?_, ?_⟩ <;> linarith

/-- C7: for distinct endpoints and positive extents, with `((a0,b0),(a1,b1))` the
endpoints after the transposition (when `|y1-y0| > |x1-x0|`) and the ordering swap,
`bresenhamWithXiaolin` returns `a1-a0+1` pairs in increasing order of the stepping
coordinate.  With `yi = b0 + i*(b1-b0)/(a1-a0)`, `q = floor yi` and `f = yi - q`, the
`i`-th pair is the cell at stepping coordinate `a0+i` and minor coordinate `q` with weight
`1 - f`, then the cell at minor coordinate `q+1` with weight `f`; the stepping coordinate
is the column when not steep and the row when steep.  The vertices returned are these
cells normalised by `2*cell/extent - 1`. -/
theorem wu_pairs_closed_form (x0 y0 x1 y1 width height a0 b0 a1 b1 : Int)
    (hne : (x0, y0) ≠ (x1, y1)) (hw : 0 < width) (hh : 0 < height)
    (hord : orderedEndpoints x0 y0 x1 y1 = ((a0, b0), (a1, b1))) :
    a0 < a1 ∧
    ∃ cells : List WCell,
      wuCells x0 y0 x1 y1 = some cells ∧
      bresenhamWithXiaolin x0 y0 x1 y1 width height =
        some (cells.map fun c =>
          { x := some (2 * (c.col : ℚ) / width - 1), y := some (2 * (c.row : ℚ) / height - 1),
            alpha := c.weight }) ∧
      (cells.length : Int) = 2 * (a1 - a0 + 1) ∧
      ∀ i : Nat, (i : Int) ≤ a1 - a0 →
        cells[2 * i]? = some
          (if |y1 - y0| > |x1 - x0| then
            { col := ⌊idealY a0 b0 a1 b1 i⌋, row := a0 + i,
              weight := some (1 - (idealY a0 b0 a1 b1 i - ⌊idealY a0 b0 a1 b1 i⌋)) }
          else
            { col := a0 + i, row := ⌊idealY a0 b0 a1 b1 i⌋,
              weight := some (1 - (idealY a0 b0 a1 b1 i - ⌊idealY a0 b0 a1 b1 i⌋)) }) ∧
        cells[2 * i + 1]? = some
          (if |y1 - y0| > |x1 - x0| then
            { col := ⌊idealY a0 b0 a1 b1 i⌋ + 1, row := a0 + i,
              weight := some (idealY a0 b0 a1 b1 i - ⌊idealY a0 b0 a1 b1 i⌋) }
          else
            { col := a0 + i, row := ⌊idealY a0 b0 a1 b1 i⌋ + 1,
              weight := some (idealY a0 b0 a1 b1 i - ⌊idealY a0 b0 a1 b1 i⌋) }) := by
  have hs := wuSetup_ordered x0 y0 x1 y1
  rw [hord] at hs
  simp only [Prod.mk.injEq] at hs
  obtain ⟨⟨e1, e2⟩, e3, e4⟩ := hs
  have hle := wuSetup_le x0 y0 x1 y1
  have hiff := wuSetup_eq_iff x0 y0 x1 y1
  have hlt : a0 < a1 := by
    rw [e1, e3]
    rcases hle.eq_or_lt with h | h
    · exact absurd (hiff.mp h.symm) hne
    · exact h
  have hcount := wuCount_cast x0 y0 x1 y1
  rw [← e1, ← e3] at hcount
  have hw' : width ≠ 0 := by omega
  have hh' : height ≠ 0 := by omega
  refine ⟨hlt, _, wuCells_closed x0 y0 x1 y1, ?_, ?_, ?_⟩
  · rw [bresenhamWithXiaolin_eq_map, wuCells_closed]
    simp only [Option.map_some', ndc_of_ne _ hw', ndc_of_ne _ hh']
  · rw [pairs_length]; push_cast; rw [hcount]
  · intro i hi
    have hi' : i < wuCount x0 y0 x1 y1 := by omega
    obtain ⟨h1, h2⟩ := pairs_getElem
      (fun i => wuMain (fun c r w => ({ col := c, row := r, weight := w } : WCell))
        (wuSetup x0 y0 x1 y1).steep ((wuSetup x0 y0 x1 y1).x0 + i) (wuY x0 y0 x1 y1 i))
      (fun i => wuAdjacent (fun c r w => ({ col := c, row := r, weight := w } : WCell))
        (wuSetup x0 y0 x1 y1).steep ((wuSetup x0 y0 x1 y1).x0 + i) (wuY x0 y0 x1 y1 i))
      (wuCount x0 y0 x1 y1) i hi'
    rw [h1, h2]
    simp only [wuMain, wuAdjacent, wuY_eq_idealY, wuSetup_steep, ← e1, ← e2, ← e3, ← e4,
      decide_eq_true_eq]
    constructor <;> split_ifs <;> rfl

/-- Witness for C7: from (0,0) to (4,2) on the 800 by 600 grid there are 5 pairs, and
the pair at x = 2 is the cell (2,1) with weight 1 followed by the cell (2,2) with weight 0. -/
theorem wu_pairs_closed_form_witness :
    ∃ cells : List WCell,
      wuCells 0 0 4 2 = some cells ∧
      (cells.length : Int) = 10 ∧
      cells[4]? = some { col := 2, row := 1, weight := some 1 } ∧
      cells[5]? = some { col := 2, row := 2, weight := some 0 } := by
  obtain ⟨-, cells, h1, -, h3, h4⟩ := wu_pairs_closed_form 0 0 4 2 800 600 0 0 4 2
    (by decide) (by decide) (by decide) (by decide)
  have h := h4 2 (by decide)
  have hy : idealY 0 0 4 2 2 = 1 := by norm_num [idealY]
  rw [hy] at h
  refine ⟨cells, h1, by simpa using h3, ?_, ?_⟩
  · simpa using h.1
  · simpa using h.2

/-- C8 as stated fails: from (0,0) to (2,4) the call returns 10 vertices (5 pairs),
not 6 vertices (3 pairs). -/
theorem wu_steep_three_steps_counterexample :
    (bresenhamWithXiaolin 0 0 2 4 800 600).map List.length = some 10 ∧
    (bresenhamWithXiaolin 0 0 2 4 800 600).map List.length ≠ some 6 := by
  have hc : wuCount 0 0 2 4 = 5 := by decide
  rw [bresenhamWithXiaolin_closed, Option.map_some', pairs_length, hc]
  decide

/-- C8 amended: from (0,0) to (2,4), the steep case, `bresenhamWithXiaolin` pushes 5
pairs (10 vertices), one for each row `y = 0, ..., 4`.  In each pair the stepped
coordinate is the row and the two cells are the horizontally adjacent columns `x` and
`x+1`; the vertices returned are these cells normalised. -/
theorem wu_steep_five_steps (width height : Int) :
    wuCells 0 0 2 4 =
      some [{ col := 0, row := 0, weight := some 1 }, { col := 1, row := 0, weight := some 0 },
            { col := 0, row := 1, weight := some (1 / 2) },
            { col := 1, row := 1, weight := some (1 / 2) },
            { col := 1, row := 2, weight := some 1 }, { col := 2, row := 2, weight := some 0 },
            { col := 1, row := 3, weight := some (1 / 2) },
            { col := 2, row := 3, weight := some (1 / 2) },
            { col := 2, row := 4, weight := some 1 }, { col := 3, row := 4, weight := some 0 }] ∧
    bresenhamWithXiaolin 0 0 2 4 width height =
      some [{ x := ndc 0 width, y := ndc 0 height, alpha := some 1 },
            { x := ndc 1 width, y := ndc 0 height, alpha := some 0 },
            { x := ndc 0 width, y := ndc 1 height, alpha := some (1 / 2) },
            { x := ndc 1 width, y := ndc 1 height, alpha := some (1 / 2) },
            { x := ndc 1 width, y := ndc 2 height, alpha := some 1 },
            { x := ndc 2 width, y := ndc 2 height, alpha := some 0 },
            { x := ndc 1 width, y := ndc 3 height, alpha := some (1 / 2) },
            { x := ndc 2 width, y := ndc 3 height, alpha := some (1 / 2) },
            { x := ndc 2 width, y := ndc 4 height, alpha := some 1 },
            { x := ndc 3 width, y := ndc 4 height, alpha := some 0 }] := by
  have hs : wuSetup 0 0 2 4 =
      ⟨true, 0, 0, 4, 2, some 4, some 2, some (1 / 2)⟩ := by
    simp [wuSetup, XFloat.div, XFloat.ofInt]
    norm_num
  constructor
  · simp only [wuCells, wuRun, hs]
    norm_num [wuLoop, XFloat.add, XFloat.sub, XFloat.ofInt, -Int.self_sub_floor]
  · simp only [bresenhamWithXiaolin, wuRun, hs]
    norm_num [wuLoop, XFloat.add, XFloat.sub, XFloat.ofInt, -Int.self_sub_floor]
